import Mathlib

/-!
Verification of the "suchoi" hash function (src/suchoi.c).

The C code works on `uint32_t` values; the shallow embedding uses `Nat` with
explicit reduction `% 2 ^ 32` wherever a C operation can overflow.  Bytes are
naturals reduced `% 256` at the point where the C code reads them.  The one
place where the C code can go wrong at runtime — an out-of-bounds read of the
16-entry s-box `c_pi`, reachable because `suchoi` reads input bytes through a
plain (signed) `char` — is modelled with `Option`: `none` marks the
out-of-bounds access.
-/

namespace Suchoi

/-- The s-box from src/suchoi.c (`c_pi`, lines 68-85): sixteen 32-bit
constants, the leading fractional digits of pi. -/
def c_pi : List Nat :=
[0x243F6A88,
 0x85A308D3,
 0x3198A2E0,
 0x3707344A,
 0x40938222,
 0x99F31D00,
 0x82EFA98E,
 0xC4E6C894,
 0x52821E63,
 0x8D01377B,
 0xE5466CF3,
 0x4E90C6CC,
 0x0AC29B7C,
 0x97C50DD3,
 0xF84D5B5B,
 0x54709179]

/-- `rotate` from src/suchoi.c lines 176-179:
`return (input << count) | (input >> (32 - count));` on `uint32_t`.
The `Nat` model gives the right-hand part `input >>> 32 = 0` when `count = 0`;
this agrees with both hardware behaviours of the C expression (a zero-fill
shifter yields 0, a masked-count shifter yields `input`, and OR-ing with the
left part `input << 0 = input` gives `input` either way).  The C-level
definedness of the shift counts is tracked separately by `rotateC`. -/
def rotate (input count : Nat) : Nat :=
  ((input <<< count) % 2 ^ 32) ||| (input >>> (32 - count))

/-- The same source expression as `rotate`, with C's definedness condition on
shift counts made explicit: shifting a `uint32_t` by an amount not below the
width 32 is undefined behaviour, modelled as `none`.  The left shift uses
`count`, the right shift uses `32 - count`; both must be below 32. -/
def rotateC (input count : Nat) : Option Nat :=
  if count < 32 ∧ 32 - count < 32 then
    some (((input <<< count) % 2 ^ 32) ||| (input >>> (32 - count)))
  else
    none

/-- The first three lines of a `shapashnik` round (src/suchoi.c lines 226-228):
`upper = input >> 16; lower = input & 0xFFFF; output = (lower << 16) | upper;`.
-/
def swapHalves (input : Nat) : Nat :=
  ((input &&& 0xFFFF) <<< 16) ||| (input >>> 16)

/-- The `for` loop of `shapashnik` (src/suchoi.c lines 224-232), indexed by the
number of remaining rounds; the pair carries `(input, key)`.  Each round sets
`output = rotate(swapHalves input, key & 0x7)` and `key = rotate(key, 3)`. -/
def shapashnik_loop : Nat → Nat × Nat → Nat × Nat
  | 0, p => p
  | n + 1, (input, key) =>
      shapashnik_loop n (rotate (swapHalves input) (key &&& 0x7), rotate key 3)

/-- `shapashnik` from src/suchoi.c lines 219-235: ten rounds of
swap-halves-and-rotate; the final key is discarded. -/
def shapashnik (input key : Nat) : Nat :=
  (shapashnik_loop 10 (input, key)).1

/-- `uint8_t upperNibble = octet >> 4` from src/suchoi.c line 117, where
`octet` is a plain `char` loaded from the input (line 116).  On the common
signed-`char` ABI a byte with the high bit set is read as a negative value,
`>> 4` is an arithmetic shift (floor division by 16, which is what `Int`
division by a positive constant computes), and the store into `uint8_t`
reduces the result modulo 256.  `b` is the byte value, reduced `% 256`. -/
def upperNibble (b : Nat) : Nat :=
  let byte := b % 256
  let octet : Int := if byte < 128 then (byte : Int) else (byte : Int) - 256
  ((octet / 16) % 256).toNat

/-- `uint8_t lowerNibble = octet & 0xF` from src/suchoi.c line 118.  For a
negative `char` the two's-complement bit pattern has the same low four bits as
the byte itself, so the mask is unaffected by the sign. -/
def lowerNibble (b : Nat) : Nat :=
  (b % 256) &&& 0xF

/-- The inlined state rotation of `suchoi`
(src/suchoi.c lines 120 and 122): `state = (state << 31) | (state >> 1);`. -/
def rotState (state : Nat) : Nat :=
  ((state <<< 31) % 2 ^ 32) ||| (state >>> 1)

/-- One iteration of the `suchoi` loop body (src/suchoi.c lines 116-126) for
byte index `i` and byte value `b`.  The s-box reads `c_pi[upperNibble]` and
`c_pi[lowerNibble]` are modelled with `List.get?`: an index outside the
16-entry table is an out-of-bounds read, yielding `none`. -/
def suchoiBody (i b state : Nat) : Option Nat :=
  match c_pi.get? (upperNibble b), c_pi.get? (lowerNibble b) with
  | some u, some l =>
      let s1 := rotState (state ^^^ u)
      let s2 := rotState (s1 ^^^ l)
      some (if i &&& 0xF = 0xF then shapashnik s2 s2 else s2)
  | _, _ => none

/-- The `for` loop of `suchoi` (src/suchoi.c lines 114-127): `i` is the
current byte index, the second argument the number of bytes still to process.
-/
def suchoiLoop (input : Nat → Nat) : Nat → Nat → Nat → Option Nat
  | _, 0, state => some state
  | i, rem + 1, state =>
      match suchoiBody i (input i % 256) state with
      | some s => suchoiLoop input (i + 1) rem s
      | none => none

/-- `suchoi` from src/suchoi.c lines 109-129: digest of `input_size` bytes
read from `input`, starting from `state = 0`. -/
def suchoi (input : Nat → Nat) (input_size : Nat) : Option Nat :=
  suchoiLoop input 0 input_size 0

/-- The `int2octets` loop (src/suchoi.c lines 131-139), indexed by remaining
iterations: `output[i] = input & 0xFF; input >>= 8;`, four times. -/
def int2octets_loop : Nat → Nat → List Nat
  | 0, _ => []
  | n + 1, input => (input &&& 0xFF) :: int2octets_loop n (input >>> 8)

/-- `int2octets` from src/suchoi.c: the four output bytes, least significant
first. -/
def int2octets (input : Nat) : List Nat :=
  int2octets_loop 4 input

/-- `octets2int` from src/suchoi.c lines 141-152: the loop
`for (i = 3; i > 0; i--) { output |= input[i]; output <<= 8; }` unrolled
(three iterations), followed by `output |= input[0]`. -/
def octets2int (input : List Nat) : Nat :=
  let o3 := (0 ||| input.getD 3 0) <<< 8
  let o2 := (o3 ||| input.getD 2 0) <<< 8
  let o1 := (o2 ||| input.getD 1 0) <<< 8
  o1 ||| input.getD 0 0

/-- The `bit_diff` loop (src/suchoi.c lines 239-253), indexed by remaining
iterations: count the positions where the low bits of `a` and `b` agree, then
shift both right by one. -/
def bit_diff_loop : Nat → Nat → Nat → Nat
  | 0, _, _ => 0
  | n + 1, a, b =>
      (if a &&& 1 = b &&& 1 then 1 else 0) + bit_diff_loop n (a >>> 1) (b >>> 1)

/-- `bit_diff` from src/suchoi.c: 32 iterations of the comparison loop. -/
def bit_diff (a b : Nat) : Nat :=
  bit_diff_loop 32 a b

/-! ### Reference definitions taken from the specification's wording -/

/-- Reference rounds for claim C3, following the spec text (spec.md section
4.3): each round splits the working value into its upper 16 bits and lower 16
bits, recombines with the lower half first, rotates the recombined word left
by `key & 0x7` bits, and rotates the key left by 3 bits for the next round. -/
def shapashnikRounds : Nat → Nat → Nat → Nat
  | 0, x, _ => x
  | n + 1, x, k =>
      shapashnikRounds n (rotate ((x % 2 ^ 16) * 2 ^ 16 + x / 2 ^ 16) (k % 8)) (rotate k 3)

/-- Reference per-byte step for claim C1, following the claim's wording: XOR
the state with `sbox[upper nibble]` (bits 4-7 of the byte), rotate left by 31,
XOR with `sbox[lower nibble]` (bits 0-3), rotate left by 31 again, and when
`(i & 0xF) == 0xF` replace the state with `shapashnik(state, state)`. -/
def suchoiRefStep (i b state : Nat) : Nat :=
  let s1 := rotate (state ^^^ c_pi.getD (b / 16) 0) 31
  let s2 := rotate (s1 ^^^ c_pi.getD (b % 16) 0) 31
  if i &&& 0xF = 0xF then shapashnik s2 s2 else s2

/-- Reference accumulator loop for claim C1. -/
def suchoiRefLoop (input : Nat → Nat) : Nat → Nat → Nat → Nat
  | _, 0, state => state
  | i, rem + 1, state =>
      suchoiRefLoop input (i + 1) rem (suchoiRefStep i (input i % 256) state)

/-- Reference digest for claim C1: start from state 0 and fold every byte
through `suchoiRefStep`. -/
def suchoiReference (input : Nat → Nat) (n : Nat) : Nat :=
  suchoiRefLoop input 0 n 0

/-- Number of the 32 bit positions at which `a` and `b` carry the same bit
value (the similarity count of claim C9). -/
def eqBitCount (a b : Nat) : Nat :=
  List.countP (fun i => a.testBit i == b.testBit i) (List.range 32)

/-- Hamming distance on 32-bit words: the number of the 32 bit positions at
which `a` and `b` differ (claim C9). -/
def hammingDist (a b : Nat) : Nat :=
  List.countP (fun i => !(a.testBit i == b.testBit i)) (List.range 32)

/-! ### Bit-arithmetic helper lemmas -/

/-- A left-shifted value OR-ed with a value fitting below the shift is plain
addition: the bit ranges are disjoint. -/
theorem shiftLeft_lor_eq_add {k b : Nat} (a : Nat) (hb : b < 2 ^ k) :
    (a <<< k) ||| b = a <<< k + b := by
  have hmul : a <<< k + b = 2 ^ k * a + b := by
    rw [Nat.shiftLeft_eq]; ring
  apply Nat.eq_of_testBit_eq
  intro j
  rw [Nat.testBit_lor, Nat.testBit_shiftLeft, hmul,
    Nat.testBit_mul_pow_two_add a hb j]
  by_cases hj : j < k
  · have h1 : ¬ j ≥ k := by omega
    simp [hj, h1]
  · have h1 : j ≥ k := by omega
    have hbf : b.testBit j = false :=
      Nat.testBit_lt_two_pow
        (lt_of_lt_of_le hb (Nat.pow_le_pow_right (by norm_num) h1))
    simp [hj, h1, hbf]

/-- Closed form of `rotate` for a 32-bit word and a count in `[0, 32)`:
the top `count` bits wrap around to the bottom. -/
theorem rotate_eq_of_lt {w : Nat} (k : Nat) (hw : w < 2 ^ 32) (hk : k < 32) :
    rotate w k = (w % 2 ^ (32 - k)) * 2 ^ k + w / 2 ^ (32 - k) := by
  have hkk : 2 ^ (32 - k) * 2 ^ k = 2 ^ 32 := by
    rw [← pow_add]; congr 1; omega
  have hq : w / 2 ^ (32 - k) < 2 ^ k := by
    rw [Nat.div_lt_iff_lt_mul (Nat.pos_pow_of_pos _ (by norm_num))]
    calc w < 2 ^ 32 := hw
    _ = 2 ^ k * 2 ^ (32 - k) := by rw [← pow_add]; congr 1; omega
  have hr : w % 2 ^ (32 - k) < 2 ^ (32 - k) :=
    Nat.mod_lt _ (Nat.pos_pow_of_pos _ (by norm_num))
  have hmod : (w <<< k) % 2 ^ 32 = (w % 2 ^ (32 - k)) <<< k := by
    rw [Nat.shiftLeft_eq, Nat.shiftLeft_eq]
    conv_lhs => rw [← Nat.div_add_mod w (2 ^ (32 - k))]
    have hsplit : (2 ^ (32 - k) * (w / 2 ^ (32 - k)) + w % 2 ^ (32 - k)) * 2 ^ k
        = 2 ^ 32 * (w / 2 ^ (32 - k)) + w % 2 ^ (32 - k) * 2 ^ k := by
      rw [← hkk]; ring
    rw [hsplit, Nat.mul_add_mod]
    exact Nat.mod_eq_of_lt (by
      calc w % 2 ^ (32 - k) * 2 ^ k < 2 ^ (32 - k) * 2 ^ k :=
            (Nat.mul_lt_mul_right (Nat.pos_pow_of_pos _ (by norm_num))).mpr hr
      _ = 2 ^ 32 := hkk)
  rw [rotate, hmod, Nat.shiftRight_eq_div_pow, shiftLeft_lor_eq_add _ hq,
    Nat.shiftLeft_eq]

/-- `rotate` by 0 leaves a 32-bit word unchanged (in the hardware model, where
a right shift by 32 yields 0). -/
theorem rotate_zero {w : Nat} (hw : w < 2 ^ 32) : rotate w 0 = w := by
  have h1 : w <<< 0 = w := rfl
  have h2 : w >>> 32 = 0 := by
    rw [Nat.shiftRight_eq_div_pow]
    exact Nat.div_eq_of_lt hw
  rw [rotate, Nat.sub_zero, h1, h2, Nat.mod_eq_of_lt hw, Nat.or_zero]

/-- `rotate` keeps a 32-bit word 32-bit, for any count. -/
theorem rotate_lt {w : Nat} (count : Nat) (hw : w < 2 ^ 32) :
    rotate w count < 2 ^ 32 := by
  apply Nat.or_lt_two_pow
  · exact Nat.mod_lt _ (by norm_num)
  · rw [Nat.shiftRight_eq_div_pow]
    exact lt_of_le_of_lt (Nat.div_le_self _ _) hw

/-- Rotating left by `k` and then by `32 - k` restores a 32-bit word. -/
theorem rotate_rotate_cancel {w : Nat} (k : Nat) (hw : w < 2 ^ 32)
    (hk0 : 0 < k) (hk : k < 32) : rotate (rotate w k) (32 - k) = w := by
  have hq : w / 2 ^ (32 - k) < 2 ^ k := by
    rw [Nat.div_lt_iff_lt_mul (Nat.pos_pow_of_pos _ (by norm_num))]
    calc w < 2 ^ 32 := hw
    _ = 2 ^ k * 2 ^ (32 - k) := by rw [← pow_add]; congr 1; omega
  have hr : w % 2 ^ (32 - k) < 2 ^ (32 - k) :=
    Nat.mod_lt _ (Nat.pos_pow_of_pos _ (by norm_num))
  have h1 : rotate w k = (w % 2 ^ (32 - k)) * 2 ^ k + w / 2 ^ (32 - k) :=
    rotate_eq_of_lt k hw hk
  have hlt : rotate w k < 2 ^ 32 := rotate_lt k hw
  have h2 : rotate (rotate w k) (32 - k) =
      (rotate w k % 2 ^ k) * 2 ^ (32 - k) + rotate w k / 2 ^ k := by
    have := rotate_eq_of_lt (w := rotate w k) (32 - k) hlt (by omega)
    rwa [show 32 - (32 - k) = k by omega] at this
  have hmod : rotate w k % 2 ^ k = w / 2 ^ (32 - k) := by
    rw [h1, Nat.mul_comm, Nat.mul_add_mod]
    exact Nat.mod_eq_of_lt hq
  have hdiv : rotate w k / 2 ^ k = w % 2 ^ (32 - k) := by
    rw [h1, Nat.mul_comm, Nat.mul_add_div (Nat.pos_pow_of_pos _ (by norm_num))]
    rw [Nat.div_eq_of_lt hq, Nat.add_zero]
  rw [h2, hmod, hdiv, Nat.mul_comm, Nat.div_add_mod]

/-- For a fixed count below 32, `rotate` is injective on 32-bit words. -/
theorem rotate_inj {w v : Nat} (k : Nat) (hw : w < 2 ^ 32) (hv : v < 2 ^ 32)
    (hk : k < 32) (h : rotate w k = rotate v k) : w = v := by
  rcases Nat.eq_zero_or_pos k with hk0 | hk0
  · subst hk0
    rwa [rotate_zero hw, rotate_zero hv] at h
  · have := congrArg (fun t => rotate t (32 - k)) h
    simpa [rotate_rotate_cancel k hw hk0 hk, rotate_rotate_cancel k hv hk0 hk]
      using this

/-! ### Claims C7 and C8 -/

/-- Claim C7: for every 32-bit word `w` and every count `k` with
`0 < k < 32`, a left rotation by `k` is undone by a further left rotation by
`32 - k`. -/
theorem rotate_inverse (w k : Nat) (hw : w < 2 ^ 32) (hk0 : 0 < k)
    (hk : k < 32) : rotate (rotate w k) (32 - k) = w :=
  rotate_rotate_cancel k hw hk0 hk

/-- Witness for claim C7 at `w = 0xDEADBEEF`, `k = 7`. -/
theorem rotate_inverse_witness :
    rotate (rotate 0xDEADBEEF 7) (32 - 7) = 0xDEADBEEF :=
  rotate_inverse 0xDEADBEEF 7 (by norm_num) (by norm_num) (by norm_num)

/-- Claim C8, counterexample: the rotate implementation does not special-case
`count == 0` — the C expression `input >> (32 - count)` there is a shift by
32 bits, which is undefined for `uint32_t`; `rotateC`, the source expression
with C's shift-definedness condition tracked, is `none` at count 0. -/
theorem rotateC_zero_count_undefined : rotateC 0x12345678 0 = none := by
  decide

/-- Claim C8, amended: `rotate w 0 = w` for every 32-bit word `w` in the
hardware shift model (where the shift by 32 produced by `count = 0` yields 0,
as it does on both masked-count and zero-fill shifters); the C code itself
does not special-case `count == 0` and its shift by 32 is undefined
behaviour. -/
theorem rotate_zero_count (w : Nat) (hw : w < 2 ^ 32) : rotate w 0 = w :=
  rotate_zero hw

/-- Witness for the amended claim C8 at `w = 0xCAFEBABE`. -/
theorem rotate_zero_count_witness : rotate 0xCAFEBABE 0 = 0xCAFEBABE :=
  rotate_zero_count 0xCAFEBABE (by norm_num)

/-! ### Claims C4 and C6 -/

/-- Claim C4: for every input byte sequence, `suchoi input 0` is defined and
returns the initial accumulator state 0 — a zero-length input is valid, no
byte is read, and the digest is 0. -/
theorem suchoi_empty_input : ∀ input : Nat → Nat, suchoi input 0 = some 0 :=
  fun _ => rfl

/-- Claim C6: `int2octets 0xABCD0123` is exactly the byte sequence
`[0x23, 0x01, 0xCD, 0xAB]` (little-endian, byte 0 least significant) and
`octets2int` recovers `0xABCD0123` from it. -/
theorem int2octets_known_value :
    int2octets 0xABCD0123 = [0x23, 0x01, 0xCD, 0xAB] ∧
    octets2int [0x23, 0x01, 0xCD, 0xAB] = 0xABCD0123 := by
  constructor
  · rfl
  · rfl

/-! ### Claim C5: codec round trip -/

/-- Masking with `0xFF` is reduction modulo 256. -/
theorem and_255_eq_mod (n : Nat) : n &&& 255 = n % 256 := by
  have h := Nat.and_pow_two_sub_one_eq_mod n 8
  norm_num at h
  exact h

/-- Right shift by 8 is division by 256. -/
theorem shiftRight_8_eq_div (n : Nat) : n >>> 8 = n / 256 := by
  rw [Nat.shiftRight_eq_div_pow]

/-- `int2octets` produces the four little-endian bytes of its argument. -/
theorem int2octets_eq (w : Nat) :
    int2octets w =
      [w % 256, w / 256 % 256, w / 256 / 256 % 256, w / 256 / 256 / 256 % 256] := by
  simp [int2octets, int2octets_loop, and_255_eq_mod, shiftRight_8_eq_div]

/-- Claim C5: packing a 32-bit word into 4 bytes and unpacking recovers the
word. -/
theorem octets2int_int2octets (w : Nat) (hw : w < 2 ^ 32) :
    octets2int (int2octets w) = w := by
  rw [int2octets_eq]
  have hb : ∀ n : Nat, n % 256 < 2 ^ 8 := by
    intro n
    norm_num
    exact Nat.mod_lt _ (by norm_num)
  unfold octets2int
  simp only [List.getD_cons_succ, List.getD_cons_zero]
  rw [Nat.zero_or, shiftLeft_lor_eq_add _ (hb _), shiftLeft_lor_eq_add _ (hb _),
    shiftLeft_lor_eq_add _ (hb _), Nat.shiftLeft_eq, Nat.shiftLeft_eq,
    Nat.shiftLeft_eq]
  norm_num
  omega

/-- Witness for claim C5 at `w = 0xDEADBEEF`. -/
theorem octets2int_int2octets_witness :
    octets2int (int2octets 0xDEADBEEF) = 0xDEADBEEF :=
  octets2int_int2octets 0xDEADBEEF (by norm_num)

/-! ### Claim C9: bit_diff counts equal bit positions -/

/-- Masking with 1 is reduction modulo 2. -/
theorem and_one_eq_mod (n : Nat) : n &&& 1 = n % 2 := by
  simp [Nat.and_one_is_mod]

/-- The `bit_diff` loop over `n` iterations counts the positions below `n`
where the two arguments carry equal bits. -/
theorem bit_diff_loop_eq (n : Nat) : ∀ a b : Nat,
    bit_diff_loop n a b =
      List.countP (fun i => a.testBit i == b.testBit i) (List.range n) := by
  induction n with
  | zero => intro a b; rfl
  | succ m ih =>
    intro a b
    rw [List.range_succ_eq_map, List.countP_cons, List.countP_map]
    have hcomp : ((fun i => a.testBit i == b.testBit i) ∘ Nat.succ)
        = fun i => (a / 2).testBit i == (b / 2).testBit i := by
      funext i
      simp [Function.comp, Nat.testBit_succ]
    rw [hcomp]
    show (if a &&& 1 = b &&& 1 then 1 else 0)
        + bit_diff_loop m (a >>> 1) (b >>> 1) = _
    rw [Nat.shiftRight_one, Nat.shiftRight_one, ih]
    have hif : (a &&& 1 = b &&& 1) ↔ ((a.testBit 0 == b.testBit 0) = true) := by
      rw [and_one_eq_mod, and_one_eq_mod, Nat.testBit_zero, Nat.testBit_zero]
      rcases Nat.mod_two_eq_zero_or_one a with h1 | h1 <;>
        rcases Nat.mod_two_eq_zero_or_one b with h2 | h2 <;>
          simp [h1, h2]
    simp only [hif]
    omega

/-- Counting a predicate and its negation over a list exhausts its length. -/
theorem countP_add_countP_not (p : Nat → Bool) (l : List Nat) :
    List.countP p l + List.countP (fun x => ! p x) l = l.length := by
  induction l with
  | nil => rfl
  | cons x xs ih =>
    rw [List.countP_cons, List.countP_cons, List.length_cons]
    cases h : p x <;> simp [h] <;> omega

/-- Claim C9: `bit_diff a b` is the number of the 32 bit positions at which
`a` and `b` agree (a similarity count, not a Hamming distance); hence
`bit_diff a a = 32` and `bit_diff a b` plus the Hamming distance is 32. -/
theorem bit_diff_counts_equal_bits : ∀ a b : Nat,
    bit_diff a b = eqBitCount a b ∧ bit_diff a a = 32 ∧
      bit_diff a b + hammingDist a b = 32 := by
  intro a b
  refine ⟨bit_diff_loop_eq 32 a b, ?_, ?_⟩
  · rw [bit_diff, bit_diff_loop_eq 32 a a]
    simp
  · rw [bit_diff, bit_diff_loop_eq 32 a b]
    have h := countP_add_countP_not (fun i => a.testBit i == b.testBit i)
      (List.range 32)
    simpa [hammingDist] using h

/-! ### Claim C3: shapashnik is exactly ten spec rounds -/

/-- Masking with `0x7` is reduction modulo 8. -/
theorem and_seven_eq_mod (n : Nat) : n &&& 7 = n % 8 := by
  have h := Nat.and_pow_two_sub_one_eq_mod n 3
  norm_num at h
  exact h

/-- Closed arithmetic form of `swapHalves` on a 32-bit word: the low half
moves up, the high half moves down. -/
theorem swapHalves_eq {x : Nat} (hx : x < 2 ^ 32) :
    swapHalves x = (x % 2 ^ 16) * 2 ^ 16 + x / 2 ^ 16 := by
  unfold swapHalves
  have h1 : x &&& 0xFFFF = x % 2 ^ 16 := by
    have h := Nat.and_pow_two_sub_one_eq_mod x 16
    norm_num at h ⊢
    exact h
  have h2 : x >>> 16 = x / 2 ^ 16 := Nat.shiftRight_eq_div_pow x 16
  have h3 : x / 2 ^ 16 < 2 ^ 16 := by
    rw [Nat.div_lt_iff_lt_mul (by norm_num)]
    calc x < 2 ^ 32 := hx
    _ = 2 ^ 16 * 2 ^ 16 := by norm_num
  rw [h1, h2, shiftLeft_lor_eq_add _ h3, Nat.shiftLeft_eq]

/-- `swapHalves` keeps 32-bit words 32-bit. -/
theorem swapHalves_lt {x : Nat} (hx : x < 2 ^ 32) : swapHalves x < 2 ^ 32 := by
  rw [swapHalves_eq hx]
  have h1 : x % 2 ^ 16 < 2 ^ 16 := Nat.mod_lt _ (by norm_num)
  have h2 : x / 2 ^ 16 < 2 ^ 16 := by
    rw [Nat.div_lt_iff_lt_mul (by norm_num)]
    calc x < 2 ^ 32 := hx
    _ = 2 ^ 16 * 2 ^ 16 := by norm_num
  norm_num at h1 h2 ⊢
  omega

/-- `swapHalves` is an involution on 32-bit words. -/
theorem swapHalves_swapHalves {x : Nat} (hx : x < 2 ^ 32) :
    swapHalves (swapHalves x) = x := by
  have h1 := swapHalves_eq hx
  have hlt : swapHalves x < 2 ^ 32 := swapHalves_lt hx
  rw [swapHalves_eq hlt, h1]
  have hx2 : x / 2 ^ 16 < 2 ^ 16 := by
    rw [Nat.div_lt_iff_lt_mul (by norm_num)]
    calc x < 2 ^ 32 := hx
    _ = 2 ^ 16 * 2 ^ 16 := by norm_num
  norm_num at hx2 ⊢
  omega

/-- The first component of the `shapashnik` loop agrees with the spec's round
recursion whenever the working value is 32-bit. -/
theorem shapashnik_loop_eq_rounds (n : Nat) : ∀ x k, x < 2 ^ 32 →
    (shapashnik_loop n (x, k)).1 = shapashnikRounds n x k := by
  induction n with
  | zero => intro x k _; rfl
  | succ m ih =>
    intro x k hx
    have harg : rotate (swapHalves x) (k &&& 0x7)
        = rotate ((x % 2 ^ 16) * 2 ^ 16 + x / 2 ^ 16) (k % 8) := by
      rw [swapHalves_eq hx, and_seven_eq_mod]
    have hlt : rotate (swapHalves x) (k &&& 0x7) < 2 ^ 32 :=
      rotate_lt _ (swapHalves_lt hx)
    show (shapashnik_loop m (rotate (swapHalves x) (k &&& 0x7), rotate k 3)).1 = _
    rw [shapashnikRounds, ← harg]
    exact ih _ _ hlt

/-- Claim C3: for a 32-bit input and any key, `shapashnik` is exactly ten
rounds of swap-the-16-bit-halves followed by a left rotation by `key & 0x7`,
the key rotating left by 3 bits between rounds, with the final key value
discarded. -/
theorem shapashnik_ten_rounds (x k : Nat) (hx : x < 2 ^ 32) :
    shapashnik x k = shapashnikRounds 10 x k :=
  shapashnik_loop_eq_rounds 10 x k hx

/-- Witness for claim C3 at `x = 0x12345678`, `k = 0x9ABCDEF0`. -/
theorem shapashnik_ten_rounds_witness :
    shapashnik 0x12345678 0x9ABCDEF0 = shapashnikRounds 10 0x12345678 0x9ABCDEF0 :=
  shapashnik_ten_rounds 0x12345678 0x9ABCDEF0 (by norm_num)

/-! ### Claim C10: shapashnik is injective in its value argument -/

/-- One `shapashnik` round keeps 32-bit words 32-bit. -/
theorem shapashnik_step_lt {x : Nat} (k : Nat) (hx : x < 2 ^ 32) :
    rotate (swapHalves x) (k &&& 0x7) < 2 ^ 32 :=
  rotate_lt _ (swapHalves_lt hx)

/-- One `shapashnik` round is injective on 32-bit words for a fixed key. -/
theorem shapashnik_step_inj {x y : Nat} (k : Nat) (hx : x < 2 ^ 32)
    (hy : y < 2 ^ 32)
    (h : rotate (swapHalves x) (k &&& 0x7) = rotate (swapHalves y) (k &&& 0x7)) :
    x = y := by
  have hk : k &&& 0x7 < 32 := by
    have h8 := and_seven_eq_mod k
    omega
  have hsw := rotate_inj (k &&& 0x7) (swapHalves_lt hx) (swapHalves_lt hy) hk h
  have h2 := congrArg swapHalves hsw
  rwa [swapHalves_swapHalves hx, swapHalves_swapHalves hy] at h2

/-- The key track of the `shapashnik` loop does not depend on the value. -/
theorem shapashnik_loop_key_indep (n : Nat) : ∀ x y k,
    (shapashnik_loop n (x, k)).2 = (shapashnik_loop n (y, k)).2 := by
  induction n with
  | zero => intro x y k; rfl
  | succ m ih => intro x y k; exact ih _ _ _

/-- The `shapashnik` loop is injective in the value for a fixed key. -/
theorem shapashnik_loop_inj (n : Nat) : ∀ k x y, x < 2 ^ 32 → y < 2 ^ 32 →
    shapashnik_loop n (x, k) = shapashnik_loop n (y, k) → x = y := by
  induction n with
  | zero =>
    intro k x y _ _ h
    simpa using congrArg Prod.fst h
  | succ m ih =>
    intro k x y hx hy h
    simp only [shapashnik_loop] at h
    have h1 := ih (rotate k 3) _ _ (shapashnik_step_lt k hx)
      (shapashnik_step_lt k hy) h
    exact shapashnik_step_inj k hx hy h1

/-- Claim C10: for every fixed key, `shapashnik` is injective on 32-bit
values — it is a true permutation, so the periodic re-mixing step never
collapses two distinct accumulator states. -/
theorem shapashnik_injective (k x y : Nat) (hx : x < 2 ^ 32) (hy : y < 2 ^ 32)
    (h : shapashnik x k = shapashnik y k) : x = y := by
  have h1 : (shapashnik_loop 10 (x, k)).1 = (shapashnik_loop 10 (y, k)).1 := h
  have h2 := shapashnik_loop_key_indep 10 x y k
  exact shapashnik_loop_inj 10 k x y hx hy (Prod.ext h1 h2)

/-- Witness for claim C10 at `k = 3`, `x = y = 5`. -/
theorem shapashnik_injective_witness :
    shapashnik 5 3 = shapashnik 5 3 ∧ (5 : Nat) = 5 :=
  ⟨rfl, shapashnik_injective 3 5 5 (by norm_num) (by norm_num) rfl⟩

/-! ### Claims C1 and C2: the per-byte step and the signed-char s-box read -/

/-- For a byte without the high bit set, the C code's `octet >> 4` does
compute bits 4-7 of the byte. -/
theorem upperNibble_of_lt {b : Nat} (hb : b < 128) :
    upperNibble b = b / 16 := by
  simp only [upperNibble]
  rw [Nat.mod_eq_of_lt (by omega)]
  rw [if_pos hb]
  omega

/-- `lowerNibble` is always bits 0-3 of the byte. -/
theorem lowerNibble_eq (b : Nat) : lowerNibble b = b % 16 := by
  unfold lowerNibble
  have h := Nat.and_pow_two_sub_one_eq_mod (b % 256) 4
  norm_num at h ⊢
  omega

/-- An s-box index below 16 is an in-bounds read of `c_pi`. -/
theorem c_pi_get?_lt {i : Nat} (h : i < 16) :
    c_pi.get? i = some (c_pi.getD i 0) := by
  interval_cases i <;> rfl

/-- The inlined state rotation of `suchoi` is a left rotation by 31. -/
theorem rotState_eq_rotate (s : Nat) : rotState s = rotate s 31 := by
  unfold rotState rotate
  norm_num

/-- For a byte below 128 the `suchoi` loop body is defined and agrees with
the claim's reference step. -/
theorem suchoiBody_eq_ref {b : Nat} (i state : Nat) (hb : b < 128) :
    suchoiBody i b state = some (suchoiRefStep i b state) := by
  have hu : upperNibble b = b / 16 := upperNibble_of_lt hb
  have hu16 : upperNibble b < 16 := by omega
  have hl : lowerNibble b = b % 16 := lowerNibble_eq b
  have hl16 : lowerNibble b < 16 := by omega
  unfold suchoiBody
  rw [c_pi_get?_lt hu16, c_pi_get?_lt hl16, hu, hl]
  unfold suchoiRefStep
  simp only [rotState_eq_rotate]

/-- The `suchoi` loop agrees with the claim's reference loop on inputs whose
bytes all have the high bit clear. -/
theorem suchoiLoop_eq_ref (input : Nat → Nat) : ∀ rem i state,
    (∀ j, j < rem → input (i + j) % 256 < 128) →
    suchoiLoop input i rem state = some (suchoiRefLoop input i rem state) := by
  intro rem
  induction rem with
  | zero => intro i state _; rfl
  | succ m ih =>
    intro i state h
    have hb : input i % 256 < 128 := by
      have h0 := h 0 (by omega)
      simpa using h0
    simp only [suchoiLoop, suchoiRefLoop]
    rw [suchoiBody_eq_ref i state hb]
    exact ih (i + 1) _ (by
      intro j hj
      have hh := h (j + 1) (by omega)
      rwa [show i + (j + 1) = i + 1 + j by omega] at hh)

/-- Claim C1: on every input whose bytes have the high bit clear, `suchoi`
computes exactly the reference digest of the claim (XOR with
`sbox[upper nibble]`, rotate left 31, XOR with `sbox[lower nibble]`, rotate
left 31, re-mix with `shapashnik(state, state)` whenever `(i & 0xF) == 0xF`).
For a byte with the high bit set the claim fails on the code: the byte is
read through a signed `char`, the arithmetic shift `octet >> 4` sign-extends,
and the s-box read `c_pi[upperNibble]` is out of bounds (`none`), as the
second conjunct shows at the failing input `[0x80]`. -/
theorem suchoi_matches_reference :
    (∀ (input : Nat → Nat) (n : Nat), (∀ i, i < n → input i % 256 < 128) →
        suchoi input n = some (suchoiReference input n)) ∧
    suchoi (fun _ => 0x80) 1 = none := by
  constructor
  · intro input n h
    unfold suchoi suchoiReference
    exact suchoiLoop_eq_ref input n 0 0 (by
      intro j hj
      have hh := h j hj
      simpa using hh)
  · rfl

/-- Witness for claim C1: the equivalence applied to the two-byte input
`"aa"` (0x61 0x61), and the out-of-bounds result on the byte 0x80. -/
theorem suchoi_matches_reference_witness :
    suchoi (fun _ => 0x61) 2 = some (suchoiReference (fun _ => 0x61) 2) ∧
    suchoi (fun _ => 0x80) 1 = none :=
  ⟨suchoi_matches_reference.1 (fun _ => 0x61) 2 (by intro i _; norm_num),
   suchoi_matches_reference.2⟩

/-- Claim C2, evaluated at the failing input: for the byte `0x80` the code's
upper-nibble computation sign-extends and yields 248, not bits 4-7 (which
would be 8), so the s-box index is not below 16 and the read of the 16-entry
`c_pi` is out of bounds.  (The lower nibble is bits 0-3 as claimed.) -/
theorem sbox_read_out_of_bounds :
    upperNibble 0x80 = 248 ∧ ¬ upperNibble 0x80 < 16 ∧
      c_pi.get? (upperNibble 0x80) = none ∧ lowerNibble 0x80 = 0 := by
  refine ⟨?_, ?_, ?_, ?_⟩ <;> decide

end Suchoi
